import Mathlib

/-!
# Verification of the transcript-to-script alignment engine

Shallow embedding of the alignment core of the repository:

* `src/v2_thai/align v6.py` — character-granularity alignment engine
  (`align_transcription_to_script_and_correct_timestamps`, `fill_gap`);
* `src/v2_thai/align but no comments.py` — the sibling variant (live
  short-match guard `len(word) > 2 > match_len`);
* `src/v2_thai/align_transcription_to_script.py` — older variant (its
  final save step raises when the aligned list is empty);
* `src/v2_thai/Util_functions.py` — `save_json_file(path, data)`, which
  raises on falsy data; `align v6.py` line 173 calls it with the
  arguments swapped, so the committed engine raises at its save step on
  every input (`align_v6_run` models the full run including this);
* `src/v2_thai/mfa v3.py` — token-granularity `<unk>` repair
  (`_repair_unknown_tokens_with_difflib`);
* `src/short_form_content_pipeline/mfa_transcript_alignment_mini_pipeline.py`
  (`_repair_unknown_tokens`).

Times are modelled as exact rationals (Python floats in the source);
Python `round(x, n)` is modelled by rounding `x * 10^n` to the nearest
integer (the sources never hit exact half-way ties in the cases the
theorems evaluate, so the tie direction is immaterial).

The engines call Python `difflib.SequenceMatcher` (no junk heuristic is
relevant at the input sizes considered, and the inputs here are below the
autojunk threshold of 200 elements).  The matcher is embedded below:
`find_longest_match` returns the longest common contiguous block of the
two windows, tie-broken to the earliest start on the reference side and
then on the hypothesis side, which is difflib's documented and actual
behaviour with no junk; `get_matching_blocks` recursively partitions
around the longest block, merges adjacent blocks and appends the
terminal zero-size block; `get_opcodes` walks the blocks and emits
`replace` / `delete` / `insert` gap opcodes and `equal` opcodes.
Tokenization of the Thai script (`pythainlp.word_tokenize` plus
punctuation filtering) is an external component; the engines below take
the normalized token list as input, exactly as the spec's data model
presents it.
-/

/-- Python `round(x, 2)` on exact rationals: round `x * 100` to the
nearest integer, then divide by 100. -/
def round2 (x : ℚ) : ℚ := (round (x * 100) : ℤ) / 100

/-- Python `round(x, 3)` on exact rationals. -/
def round3 (x : ℚ) : ℚ := (round (x * 1000) : ℤ) / 1000

/-- A timestamped word record `{"word": ..., "start": ..., "end": ...}`.
This single shape is used by the sources for Whisper fragments, MFA
segments and aligned output words alike.  `end_` stands for the Python
key `"end"` (a Lean keyword).  `start = -1` is the sentinel the engine
uses for a token whose time is not yet resolved. -/
structure Wd where
  word : String
  start : ℚ
  end_ : ℚ
deriving DecidableEq, Repr

/-- The default record used when indexing with `List.getD`. -/
def dW : Wd := ⟨"", 0, 0⟩

/-- Opcode tags of `difflib.SequenceMatcher.get_opcodes`. -/
inductive Tag where
  | equal
  | replace
  | delete
  | insert
deriving DecidableEq, Repr

/-- An edit opcode `(tag, i1, i2, j1, j2)`: `[i1, i2)` ranges over the
reference-side sequence, `[j1, j2)` over the hypothesis side. -/
structure Opcode where
  tag : Tag
  i1 : Nat
  i2 : Nat
  j1 : Nat
  j2 : Nat
deriving DecidableEq, Repr

/-- A matching block `(i, j, size)` of `get_matching_blocks`. -/
structure Block where
  i : Nat
  j : Nat
  k : Nat
deriving DecidableEq, Repr

/-- Length of the longest common prefix of two lists. -/
def commonRun [DecidableEq α] : List α → List α → Nat
  | x :: xs, y :: ys => if x = y then commonRun xs ys + 1 else 0
  | _, _ => 0

/-- Length of the common run of `a` and `b` starting at positions `i`, `j`
and confined to the windows `[_, ahi)`, `[_, bhi)`. -/
def fwdRun [DecidableEq α] (a b : List α) (i j ahi bhi : Nat) : Nat :=
  commonRun ((a.take ahi).drop i) ((b.take bhi).drop j)

/-- `difflib.SequenceMatcher.find_longest_match` (no junk): the longest
common contiguous block of `a[alo:ahi]` and `b[blo:bhi]`; on ties the
earliest start in `a`, then the earliest start in `b`; `(alo, blo, 0)`
when the windows share no element. -/
def find_longest_match [DecidableEq α] (a b : List α) (alo ahi blo bhi : Nat) : Block :=
  (List.range (ahi - alo)).foldl (fun best di =>
    (List.range (bhi - blo)).foldl (fun best dj =>
      let i := alo + di
      let j := blo + dj
      let k := fwdRun a b i j ahi bhi
      if best.k < k then ⟨i, j, k⟩ else best) best)
    ⟨alo, blo, 0⟩

/-- The recursive partition of `get_matching_blocks` (before merging and
before the terminal block): find the longest block of the window, recurse
on the prefix windows and on the suffix windows.  `fuel` bounds the
recursion depth; the window shrinks strictly at every level, so any fuel
of at least the window size is exact. -/
def blocksAux [DecidableEq α] (a b : List α) :
    Nat → Nat → Nat → Nat → Nat → List Block
  | 0, _, _, _, _ => []
  | fuel + 1, alo, ahi, blo, bhi =>
    let m := find_longest_match a b alo ahi blo bhi
    if m.k = 0 then []
    else blocksAux a b fuel alo m.i blo m.j ++
      m :: blocksAux a b fuel (m.i + m.k) ahi (m.j + m.k) bhi

/-- The adjacency-merging second pass of `get_matching_blocks`:
adjacent blocks (touching on both sides) are combined; zero-size
accumulators are dropped. -/
def mergeBlocks : Block → List Block → List Block
  | cur, [] => if cur.k = 0 then [] else [cur]
  | cur, b :: rest =>
    if cur.i + cur.k = b.i ∧ cur.j + cur.k = b.j then
      mergeBlocks ⟨cur.i, cur.j, cur.k + b.k⟩ rest
    else
      (if cur.k = 0 then [] else [cur]) ++ mergeBlocks b rest

/-- `difflib.SequenceMatcher.get_matching_blocks`: the merged block list
followed by the terminal block `(len(a), len(b), 0)`. -/
def get_matching_blocks [DecidableEq α] (a b : List α) : List Block :=
  mergeBlocks ⟨0, 0, 0⟩
      (blocksAux a b (a.length + b.length + 1) 0 a.length 0 b.length) ++
    [⟨a.length, b.length, 0⟩]

/-- The opcode-emission loop of `get_opcodes`: walk the matching blocks
keeping the current position `(ci, cj)`; a gap before a block becomes a
`replace`, `delete` or `insert` opcode, and a block of nonzero size
becomes an `equal` opcode. -/
def opcodesLoop : Nat → Nat → List Block → List Opcode
  | _, _, [] => []
  | ci, cj, b :: rest =>
    (if ci < b.i ∧ cj < b.j then [⟨.replace, ci, b.i, cj, b.j⟩]
     else if ci < b.i then [⟨.delete, ci, b.i, cj, b.j⟩]
     else if cj < b.j then [⟨.insert, ci, b.i, cj, b.j⟩]
     else []) ++
    (if b.k = 0 then [] else [⟨.equal, b.i, b.i + b.k, b.j, b.j + b.k⟩]) ++
    opcodesLoop (b.i + b.k) (b.j + b.k) rest

/-- `difflib.SequenceMatcher.get_opcodes`. -/
def get_opcodes [DecidableEq α] (a b : List α) : List Opcode :=
  opcodesLoop 0 0 (get_matching_blocks a b)

/-- Flattening of the Whisper fragment list into the concatenated
character stream (`whisper_chars_string` in `align v6.py`). -/
def whisperChars (whisper_word_data : List Wd) : List Char :=
  whisper_word_data.flatMap fun item => item.word.toList

/-- Flattening of the Whisper fragment list into the per-character time
map (`whisper_string_time_map` in `align v6.py`): every character of a
fragment receives the fragment's interval. -/
def whisperTimeMap (whisper_word_data : List Wd) : List (ℚ × ℚ) :=
  whisper_word_data.flatMap fun item =>
    item.word.toList.map fun _ => (item.start, item.end_)

/-- The candidate-collection loop of `align v6.py` (lines 70-88): for one
reference token occupying characters `[wStart, wEnd)` of the script
string, every `equal` opcode contributes the hypothesis indices of its
overlap with the token's range.  The guard `len(word) > 2 and
match_len < 1` is kept exactly as written in the source. -/
def matched_audio_indices (opcodes : List Opcode) (wStart wEnd wLen : Nat) : List Nat :=
  opcodes.flatMap fun op =>
    if op.tag = .equal then
      let overlap_start := max wStart op.i1
      let overlap_end := min wEnd op.i2
      if overlap_start < overlap_end then
        if 2 < wLen ∧ overlap_end - overlap_start < 1 then []
        else List.range' (op.j1 + (overlap_start - op.i1)) (overlap_end - overlap_start)
      else []
    else []

/-- The candidate-collection loop of `align but no comments.py`
(lines 51-68), whose guard is `len(word) > 2 > match_len`: overlaps of
fewer than 2 matched characters are rejected for tokens longer than 2
characters. -/
def matched_audio_indices_nc (opcodes : List Opcode) (wStart wEnd wLen : Nat) : List Nat :=
  opcodes.flatMap fun op =>
    if op.tag = .equal then
      let overlap_start := max wStart op.i1
      let overlap_end := min wEnd op.i2
      if overlap_start < overlap_end then
        if 2 < wLen ∧ overlap_end - overlap_start < 2 then []
        else List.range' (op.j1 + (overlap_start - op.i1)) (overlap_end - overlap_start)
      else []
    else []

/-- Raw time extraction of `align v6.py` (lines 90-99): keep the
candidate indices that are inside the time map; if any remain, the raw
start is the minimum fragment start and the raw end the maximum fragment
end among them; otherwise the token is unresolved (`none`). -/
def rawTimes (tmap : List (ℚ × ℚ)) (indices : List Nat) : Option (ℚ × ℚ) :=
  match indices.filter (fun i => decide (i < tmap.length)) with
  | [] => none
  | v :: vs =>
    let f := fun i => tmap.getD i ((0 : ℚ), (0 : ℚ))
    some (vs.foldl (fun m i => min m (f i).1) (f v).1,
          vs.foldl (fun m i => max m (f i).2) (f v).2)

/-- The strict-monotonicity clamp of `align v6.py` (lines 101-104): a
word must start no earlier than the previous word ended. -/
def clampStart (glast rs : ℚ) : ℚ := if rs < glast then glast else rs

/-- The minimum-duration safety of `align v6.py` (lines 106-108): a
non-positive duration is forced to `0.1` seconds. -/
def clampEnd (s re : ℚ) : ℚ := if re ≤ s then s + 1/10 else re

/-- The per-token projection-and-clamping loop of `align v6.py`
(lines 63-118): walk the tokens keeping the script character index and
`global_last_end_time`; a matched token's raw start is clamped up to the
global last end, a non-positive duration is forced to `0.1`, and the
global last end is advanced; an unmatched token gets the `-1` sentinel. -/
def projectTokens (ops : List Opcode) (tmap : List (ℚ × ℚ)) :
    List String → Nat → ℚ → List Wd
  | [], _, _ => []
  | w :: rest, idx, glast =>
    let wl := w.length
    let inds := matched_audio_indices ops idx (idx + wl) wl
    match rawTimes tmap inds with
    | none => ⟨w, -1, -1⟩ :: projectTokens ops tmap rest (idx + wl) glast
    | some (rs, re) =>
      ⟨w, clampStart glast rs, clampEnd (clampStart glast rs) re⟩ ::
        projectTokens ops tmap rest (idx + wl) (clampEnd (clampStart glast rs) re)

/-- `fill_gap` of `align v6.py` (lines 124-135): give each word of the
run a consecutive slot of width `step`, rounding each boundary to 2
decimal places as it is written. -/
def fill_gap : List Wd → ℚ → ℚ → List Wd
  | [], _, _ => []
  | w :: rest, t, step =>
    ⟨w.word, round2 t, round2 (t + step)⟩ :: fill_gap rest (t + step) step

/-- The interpolation pass of `align v6.py` (lines 137-163): walk the raw
words accumulating the current unresolved run (`pending`) and the time
anchor (end of the last resolved word, initially `0.0`); a resolved word
closes the run, which is filled evenly over `[anchor, word.start]`; a run
still open at the end of the sequence is filled from the anchor at the
fixed projected rate of `0.5` seconds per word. -/
def interpAux : List Wd → ℚ → List Wd → List Wd
  | [], anchor, pending =>
    fill_gap pending anchor
      (((anchor + (1/2) * (pending.length : ℚ)) - anchor) / (pending.length : ℚ))
  | w :: rest, anchor, pending =>
    if w.start = -1 then interpAux rest anchor (pending ++ [w])
    else fill_gap pending anchor ((w.start - anchor) / (pending.length : ℚ)) ++
      w :: interpAux rest w.end_ []

/-- The final rounding pass of `align v6.py` (lines 165-168). -/
def roundAll (ws : List Wd) : List Wd :=
  ws.map fun w => ⟨w.word, round2 w.start, round2 w.end_⟩

/-- The timeline computed by
`align_transcription_to_script_and_correct_timestamps` of `align v6.py`
(lines 13-168), taking the normalized reference token list (the output
of the external pythainlp tokenizer and punctuation filter) and the
Whisper fragment list.  This is the value of `final_aligned_words` at
the end of the final rounding pass; the terminal debug-dump call of
line 173 and the function return are modelled by `align_v6_run` below
(the dump call raises, so the source function never actually reaches
its `return`). -/
def align_transcription_to_script_and_correct_timestamps
    (tokens : List String) (whisper_word_data : List Wd) : List Wd :=
  let script := (String.join tokens).toList
  let wchars := whisperChars whisper_word_data
  let tmap := whisperTimeMap whisper_word_data
  let ops := get_opcodes script wchars
  roundAll (interpAux (projectTokens ops tmap tokens 0 0) 0 [])

/-- `os.path.join` as used at `align v6.py` line 172: an empty directory
part yields the bare file name, otherwise the parts are joined with a
separator. -/
def os_path_join (a b : String) : String :=
  if a = "" then b else a ++ "/" ++ b

/-- `v2_thai/Util_functions.save_json_file` (lines 3-21), modelled at
the argument types of the call in `align v6.py` line 173, which passes
its arguments swapped against the signature
`save_json_file(json_file_name_path, dict_or_json_data)`: the word list
lands in the path parameter and the save-path string in the data
parameter.  The source tests `if dict_or_json_data:` — here the
truthiness of the string — and on a truthy value calls
`open(json_file_name_path, "w")`, which rejects the list-valued path
with a `TypeError`; on a falsy value it raises
`ValueError` (message: Couldn't save JSON. Data is empty or None)
(line 21).  Either way the call raises; the model returns the exception
as an `Except.error` (messages abridged). -/
def save_json_file (json_file_name_path : List Wd)
    (dict_or_json_data : String) : Except String String :=
  if dict_or_json_data = "" then
    Except.error "ValueError: Couldnt save JSON. Data is empty or None"
  else
    Except.error "TypeError: expected str, bytes or os.PathLike object, not list"

/-- `align_transcription_to_script_and_correct_timestamps` of
`align v6.py` run to completion (lines 13-176): the timeline is
computed, line 173 evaluates
`save_json_file(final_aligned_words, full_json_save_path)` with the
arguments in the order the source passes them, and only if that call
returns does the function reach `return final_aligned_words`.  Because
`full_json_save_path` (the join of the output folder with a constant
non-empty file name, line 172) is never empty, the save call raises on
every input and the function never returns normally. -/
def align_v6_run (tokens : List String) (whisper_word_data : List Wd)
    (output_folder_path : String) : Except String (List Wd) :=
  match save_json_file
      (align_transcription_to_script_and_correct_timestamps tokens whisper_word_data)
      (os_path_join output_folder_path
        "debug_deletelater_aligned_and_corrected_transcription.json") with
  | Except.error e => Except.error e
  | Except.ok _ =>
    Except.ok (align_transcription_to_script_and_correct_timestamps tokens
      whisper_word_data)

/-- The final save step of the older variant
`align_transcription_to_script.py` (lines 157-169): saving is attempted
only when the aligned list is non-empty, and the empty case raises (the
source raises a plain string, which surfaces as an exception to the
caller). -/
def old_align_final_save (final_aligned_words : List Wd) : Except String (List Wd) :=
  if final_aligned_words = [] then
    Except.error "Couldnt save JSON for transcription"
  else Except.ok final_aligned_words

/-- Case B of the `replace` branch of
`_repair_unknown_tokens_with_difflib` (`mfa v3.py` lines 57-69): the
script words receive consecutive slots of width `word_duration`, each
boundary rounded to 3 decimal places, accumulating exactly. -/
def distributeEven : List String → ℚ → ℚ → List Wd
  | [], _, _ => []
  | w :: rest, cur, wd =>
    ⟨w, round3 cur, round3 (cur + wd)⟩ :: distributeEven rest (cur + wd) wd

/-- `mfa_chunk = mfa_data[j1:j2]` of `mfa v3.py` (line 40). -/
def mfaChunk (mfa_data : List Wd) (op : Opcode) : List Wd :=
  (mfa_data.drop op.j1).take (op.j2 - op.j1)

/-- `script_chunk = expected_tokens[i1:i2]` of `mfa v3.py` (line 41). -/
def scriptChunk (expected_tokens : List String) (op : Opcode) : List String :=
  (expected_tokens.drop op.i1).take (op.i2 - op.i1)

/-- Handling of one opcode by `_repair_unknown_tokens_with_difflib`
(`mfa v3.py` lines 28-82): `equal` keeps the MFA records; `replace` with
a non-empty MFA chunk copies timing index-by-index when the chunk
lengths agree (case A, line 49) and otherwise distributes the MFA
chunk's total duration (`end_time - start_time` over
`len(script_chunk)`) evenly over the script words (case B, line 57);
`insert` and `delete` contribute nothing. -/
def processOpcode (expected_tokens : List String) (mfa_data : List Wd)
    (op : Opcode) : List Wd :=
  if op.tag = .equal then mfaChunk mfa_data op
  else if op.tag = .replace then
    if mfaChunk mfa_data op = [] then []
    else if (mfaChunk mfa_data op).length = (scriptChunk expected_tokens op).length then
      List.zipWith (fun (w : String) (m : Wd) => (⟨w, m.start, m.end_⟩ : Wd))
        (scriptChunk expected_tokens op) (mfaChunk mfa_data op)
    else
      distributeEven (scriptChunk expected_tokens op)
        ((mfaChunk mfa_data op).headD dW).start
        ((((mfaChunk mfa_data op).getLastD dW).end_ -
            ((mfaChunk mfa_data op).headD dW).start) /
          ((scriptChunk expected_tokens op).length : ℚ))
  else []

/-- `_repair_unknown_tokens_with_difflib` of `mfa v3.py`, taking the
expected token list (the output of the external Thai preprocessing and
tokenization applied to the original script) and the MFA records. -/
def _repair_unknown_tokens_with_difflib
    (expected_tokens : List String) (mfa_data : List Wd) : List Wd :=
  let mfa_tokens := mfa_data.map Wd.word
  (get_opcodes expected_tokens mfa_tokens).flatMap
    (processOpcode expected_tokens mfa_data)

/-- `_repair_unknown_tokens` of
`mfa_transcript_alignment_mini_pipeline.py` (lines 214-224): deep-copy
the segment list and blank out every `"<unk>"` word, leaving the times
and all other segments untouched. -/
def _repair_unknown_tokens (raw : List Wd) : List Wd :=
  raw.map fun segment =>
    if segment.word = "<unk>" then { segment with word := "" } else segment

/-! ## Rounding lemmas -/

theorem round2_mono {x y : ℚ} (h : x ≤ y) : round2 x ≤ round2 y := by
  unfold round2
  have hr : round (x * 100) ≤ round (y * 100) := by
    rw [round_eq, round_eq]
    exact Int.floor_mono (by linarith)
  have hc : ((round (x * 100) : ℤ) : ℚ) ≤ ((round (y * 100) : ℤ) : ℚ) := by
    exact_mod_cast hr
  exact div_le_div_of_nonneg_right hc (by norm_num) |>.trans_eq rfl

theorem round2_zero : round2 0 = 0 := by
  unfold round2
  norm_num

theorem round2_nonneg {x : ℚ} (h : 0 ≤ x) : 0 ≤ round2 x := by
  have := round2_mono h
  rwa [round2_zero] at this

theorem round2_intCast_div : ∀ n : ℤ, round2 ((n : ℚ) / 100) = (n : ℚ) / 100 := by
  intro n
  unfold round2
  have : ((n : ℚ) / 100) * 100 = (n : ℚ) := by field_simp
  rw [this, round_intCast]

theorem round2_idem (x : ℚ) : round2 (round2 x) = round2 x := by
  unfold round2
  have : ((round (x * 100) : ℤ) : ℚ) / 100 * 100 = ((round (x * 100) : ℤ) : ℚ) := by
    field_simp
  rw [this, round_intCast]

theorem round2_nat_half (k : ℕ) : round2 ((k : ℚ) / 2) = (k : ℚ) / 2 := by
  unfold round2
  have h1 : ((k : ℚ) / 2) * 100 = ((50 * k : ℕ) : ℚ) := by push_cast; ring
  rw [h1, round_natCast]
  push_cast
  ring

/-! ## Chain invariants of the aligned timeline -/

/-- Invariant of the raw projected word list with lower bound `g` (the
running `global_last_end_time`): every resolved word starts at or after
the bound and ends strictly after it starts, and the bound advances to
its end; unresolved words are skipped. -/
def RawChain : ℚ → List Wd → Prop
  | _, [] => True
  | g, w :: rest =>
    if w.start = -1 then RawChain g rest
    else g ≤ w.start ∧ w.start < w.end_ ∧ RawChain w.end_ rest

/-- Invariant of the final timeline with lower bound `b`: every word
starts at or after the bound and at or before its own end, and the bound
advances to its end. -/
def OutChain : ℚ → List Wd → Prop
  | _, [] => True
  | b, w :: rest => b ≤ w.start ∧ w.start ≤ w.end_ ∧ OutChain w.end_ rest

theorem outChain_mono {b b' : ℚ} {l : List Wd} (h : b' ≤ b) (hc : OutChain b l) :
    OutChain b' l := by
  cases l with
  | nil => trivial
  | cons w rest => exact ⟨h.trans hc.1, hc.2.1, hc.2.2⟩

theorem clampStart_ge (glast rs : ℚ) : glast ≤ clampStart glast rs := by
  unfold clampStart
  split
  · exact le_refl _
  · exact le_of_not_lt (by assumption)

theorem clampEnd_gt (s re : ℚ) : s < clampEnd s re := by
  unfold clampEnd
  split
  · linarith
  · exact lt_of_not_le (by assumption)

theorem rawChain_nil (g : ℚ) : RawChain g [] := trivial

theorem rawChain_cons_unres {g : ℚ} {w : Wd} {rest : List Wd} (hw : w.start = -1) :
    RawChain g (w :: rest) ↔ RawChain g rest := by
  simp [RawChain, hw]

theorem rawChain_cons_res {g : ℚ} {w : Wd} {rest : List Wd} (hw : w.start ≠ -1) :
    RawChain g (w :: rest) ↔
      g ≤ w.start ∧ w.start < w.end_ ∧ RawChain w.end_ rest := by
  simp [RawChain, hw]

theorem rawChain_project (ops : List Opcode) (tmap : List (ℚ × ℚ)) :
    ∀ (tokens : List String) (idx : Nat) (g : ℚ), 0 ≤ g →
      RawChain g (projectTokens ops tmap tokens idx g) := by
  intro tokens
  induction tokens with
  | nil => intro idx g _; trivial
  | cons w rest ih =>
    intro idx g hg
    rw [projectTokens]
    cases h : rawTimes tmap (matched_audio_indices ops idx (idx + w.length) w.length) with
    | none =>
      rw [rawChain_cons_unres rfl]
      exact ih _ _ hg
    | some p =>
      obtain ⟨rs, re⟩ := p
      have hs0 : (0 : ℚ) ≤ clampStart g rs := le_trans hg (clampStart_ge g rs)
      have hse : clampStart g rs < clampEnd (clampStart g rs) re := clampEnd_gt _ _
      have hne : (Wd.mk w (clampStart g rs) (clampEnd (clampStart g rs) re)).start ≠ -1 := by
        show clampStart g rs ≠ -1
        intro hcontra
        rw [hcontra] at hs0
        linarith
      rw [rawChain_cons_res hne]
      exact ⟨clampStart_ge g rs, hse, ih _ _ (by linarith)⟩

theorem fill_gap_length : ∀ (l : List Wd) (t step : ℚ),
    (fill_gap l t step).length = l.length := by
  intro l
  induction l with
  | nil => intro t step; rfl
  | cons w rest ih => intro t step; simp [fill_gap, ih]

theorem fill_gap_words : ∀ (l : List Wd) (t step : ℚ),
    (fill_gap l t step).map Wd.word = l.map Wd.word := by
  intro l
  induction l with
  | nil => intro t step; rfl
  | cons w rest ih => intro t step; simp [fill_gap, ih]

theorem fill_gap_getD : ∀ (l : List Wd) (t step : ℚ) (k : Nat), k < l.length →
    (fill_gap l t step).getD k dW =
      ⟨(l.getD k dW).word, round2 (t + (k : ℚ) * step),
        round2 (t + ((k : ℚ) + 1) * step)⟩ := by
  intro l
  induction l with
  | nil => intro t step k hk; simp at hk
  | cons w rest ih =>
    intro t step k hk
    cases k with
    | zero =>
      simp only [fill_gap, List.getD_cons_zero]
      norm_num
    | succ m =>
      have hm : m < rest.length := by simpa using hk
      simp only [fill_gap, List.getD_cons_succ]
      rw [ih (t + step) step m hm]
      have e1 : t + step + (m : ℚ) * step = t + ((m + 1 : ℕ) : ℚ) * step := by
        push_cast
        ring
      have e2 : t + step + ((m : ℚ) + 1) * step = t + (((m + 1 : ℕ) : ℚ) + 1) * step := by
        push_cast
        ring
      rw [e1, e2]

theorem roundAll_append (l1 l2 : List Wd) :
    roundAll (l1 ++ l2) = roundAll l1 ++ roundAll l2 := by
  simp [roundAll]

theorem roundAll_fill_gap : ∀ (l : List Wd) (t step : ℚ),
    roundAll (fill_gap l t step) = fill_gap l t step := by
  intro l
  induction l with
  | nil => intro t step; rfl
  | cons w rest ih =>
    intro t step
    rw [fill_gap]
    simp only [roundAll, List.map_cons, round2_idem]
    simp only [roundAll] at ih
    rw [ih]

theorem fill_gap_chain_append {step : ℚ} (hstep : 0 ≤ step) :
    ∀ (l : List Wd) (t : ℚ) (tail : List Wd),
      OutChain (round2 (t + (l.length : ℚ) * step)) tail →
      OutChain (round2 t) (fill_gap l t step ++ tail) := by
  intro l
  induction l with
  | nil =>
    intro t tail h
    rw [fill_gap, List.nil_append]
    have e : t + ((List.length ([] : List Wd)) : ℚ) * step = t := by simp
    rwa [e] at h
  | cons w rest ih =>
    intro t tail h
    rw [fill_gap, List.cons_append]
    refine ⟨le_refl _, round2_mono (by linarith), ?_⟩
    apply ih (t + step) tail
    have e : t + step + (rest.length : ℚ) * step = t + (((w :: rest).length : ℚ)) * step := by
      simp only [List.length_cons]
      push_cast
      ring
    rw [e]
    exact h

/-- The trailing-gap step of `interpAux` reduces to the fixed rate of
`0.5` seconds per word. -/
theorem trail_step_eq (pending : List Wd) (anchor : ℚ) :
    fill_gap pending anchor
        (((anchor + (1/2) * (pending.length : ℚ)) - anchor) / (pending.length : ℚ)) =
      fill_gap pending anchor (1/2) := by
  cases pending with
  | nil => rfl
  | cons w rest =>
    have hn : ((w :: rest).length : ℚ) ≠ 0 := by
      simp only [List.length_cons]
      push_cast
      positivity
    have e : ((anchor + (1/2) * ((w :: rest).length : ℚ)) - anchor) /
        ((w :: rest).length : ℚ) = 1/2 := by
      field_simp
      ring
    rw [e]

theorem interp_chain : ∀ (l : List Wd) (anchor : ℚ) (pending : List Wd),
    0 ≤ anchor → RawChain anchor l →
    OutChain (round2 anchor) (roundAll (interpAux l anchor pending)) := by
  intro l
  induction l with
  | nil =>
    intro anchor pending hanchor _
    rw [interpAux, trail_step_eq, roundAll_fill_gap]
    have h0 : OutChain (round2 (anchor + (pending.length : ℚ) * (1/2))) [] := trivial
    have := @fill_gap_chain_append (1/2) (by norm_num) pending anchor [] h0
    simpa using this
  | cons w rest ih =>
    intro anchor pending hanchor hchain
    rw [interpAux]
    by_cases hw : w.start = -1
    · rw [if_pos hw]
      exact ih anchor (pending ++ [w]) hanchor ((rawChain_cons_unres hw).mp hchain)
    · rw [if_neg hw]
      obtain ⟨h1, h2, h3⟩ := (rawChain_cons_res hw).mp hchain
      rw [roundAll_append, roundAll_fill_gap]
      have hstep : 0 ≤ (w.start - anchor) / (pending.length : ℚ) :=
        div_nonneg (by linarith) (by positivity)
      apply fill_gap_chain_append hstep
      have htail : OutChain (round2 w.start)
          (roundAll (w :: interpAux rest w.end_ [])) := by
        simp only [roundAll, List.map_cons]
        refine ⟨le_refl _, round2_mono (le_of_lt h2), ?_⟩
        have := ih w.end_ [] (by linarith) h3
        simpa [roundAll] using this
      apply outChain_mono _ htail
      apply round2_mono
      by_cases hp : (pending.length : ℚ) = 0
      · rw [hp]
        simpa using h1
      · have hmul : (pending.length : ℚ) * ((w.start - anchor) / (pending.length : ℚ))
            = w.start - anchor := by
          field_simp
        rw [hmul]
        linarith

theorem outChain_index : ∀ (l : List Wd) (b : ℚ), OutChain b l →
    ∀ k, k < l.length →
      b ≤ (l.getD k dW).start ∧ (l.getD k dW).start ≤ (l.getD k dW).end_ := by
  intro l
  induction l with
  | nil => intro b _ k hk; simp at hk
  | cons w rest ih =>
    intro b hc k hk
    obtain ⟨h1, h2, h3⟩ := hc
    cases k with
    | zero => exact ⟨h1, h2⟩
    | succ m =>
      have hm : m < rest.length := by simpa using hk
      have hrec := ih w.end_ h3 m hm
      exact ⟨le_trans (le_trans h1 h2) hrec.1, hrec.2⟩

theorem outChain_adjacent : ∀ (l : List Wd) (b : ℚ), OutChain b l →
    ∀ k, k + 1 < l.length → (l.getD k dW).end_ ≤ (l.getD (k + 1) dW).start := by
  intro l
  induction l with
  | nil => intro b _ k hk; simp at hk
  | cons w rest ih =>
    intro b hc k hk
    obtain ⟨h1, h2, h3⟩ := hc
    cases k with
    | zero =>
      have hr : 0 < rest.length := by simpa using hk
      exact (outChain_index rest w.end_ h3 0 hr).1
    | succ m =>
      exact ih w.end_ h3 m (by simpa using hk)

theorem interpAux_words : ∀ (l : List Wd) (anchor : ℚ) (pending : List Wd),
    (interpAux l anchor pending).map Wd.word =
      pending.map Wd.word ++ l.map Wd.word := by
  intro l
  induction l with
  | nil =>
    intro anchor pending
    rw [interpAux, trail_step_eq]
    simp [fill_gap_words]
  | cons w rest ih =>
    intro anchor pending
    rw [interpAux]
    by_cases hw : w.start = -1
    · rw [if_pos hw, ih]
      simp
    · rw [if_neg hw]
      simp [fill_gap_words, ih]

theorem projectTokens_words (ops : List Opcode) (tmap : List (ℚ × ℚ)) :
    ∀ (tokens : List String) (idx : Nat) (g : ℚ),
      (projectTokens ops tmap tokens idx g).map Wd.word = tokens := by
  intro tokens
  induction tokens with
  | nil => intro idx g; rfl
  | cons w rest ih =>
    intro idx g
    rw [projectTokens]
    cases h : rawTimes tmap (matched_audio_indices ops idx (idx + w.length) w.length) with
    | none => simp [ih]
    | some p => obtain ⟨rs, re⟩ := p; simp [ih]

theorem roundAll_words (l : List Wd) : (roundAll l).map Wd.word = l.map Wd.word := by
  induction l with
  | nil => rfl
  | cons w rest ih => simp [roundAll]

theorem rawTimes_nil (inds : List Nat) : rawTimes [] inds = none := by
  unfold rawTimes
  have h : inds.filter (fun i => decide (i < ([] : List (ℚ × ℚ)).length)) = [] := by
    simp
  rw [h]

theorem projectTokens_no_tmap (ops : List Opcode) :
    ∀ (tokens : List String) (idx : Nat) (g : ℚ),
      projectTokens ops [] tokens idx g =
        tokens.map (fun w => (⟨w, -1, -1⟩ : Wd)) := by
  intro tokens
  induction tokens with
  | nil => intro idx g; rfl
  | cons w rest ih =>
    intro idx g
    rw [projectTokens, rawTimes_nil]
    simp [ih]

theorem interpAux_all_unres : ∀ (l : List Wd) (anchor : ℚ) (pending : List Wd),
    (∀ w ∈ l, w.start = -1) →
    interpAux l anchor pending = fill_gap (pending ++ l) anchor (1/2) := by
  intro l
  induction l with
  | nil =>
    intro anchor pending _
    rw [interpAux, trail_step_eq]
    simp
  | cons w rest ih =>
    intro anchor pending hall
    rw [interpAux, if_pos (hall w (List.mem_cons_self w rest))]
    rw [ih anchor (pending ++ [w]) (fun x hx => hall x (List.mem_cons_of_mem w hx))]
    simp

theorem getD_map_unres : ∀ (l : List String) (k : Nat), k < l.length →
    (l.map (fun w => (⟨w, -1, -1⟩ : Wd))).getD k dW = ⟨l.getD k "", -1, -1⟩ := by
  intro l
  induction l with
  | nil => intro k hk; simp at hk
  | cons w rest ih =>
    intro k hk
    cases k with
    | zero => simp
    | succ m => simpa using ih m (by simpa using hk)

/-- Generic decomposition of the interpolation pass at a resolved word:
everything before it is emitted (with pending gaps filled), and the pass
continues after it with the anchor advanced to its end. -/
theorem interpAux_split_at_resolved :
    ∀ (pre : List Wd) (anchor : ℚ) (pending : List Wd) (A : Wd) (tail : List Wd),
      A.start ≠ -1 →
      ∃ preOut, interpAux (pre ++ A :: tail) anchor pending =
          preOut ++ A :: interpAux tail A.end_ [] ∧
        preOut.length = pending.length + pre.length := by
  intro pre
  induction pre with
  | nil =>
    intro anchor pending A tail hA
    rw [List.nil_append, interpAux, if_neg hA]
    exact ⟨fill_gap pending anchor ((A.start - anchor) / (pending.length : ℚ)),
      rfl, by simp [fill_gap_length]⟩
  | cons w pre ih =>
    intro anchor pending A tail hA
    rw [List.cons_append, interpAux]
    by_cases hw : w.start = -1
    · rw [if_pos hw]
      obtain ⟨preOut, heq, hlen⟩ := ih anchor (pending ++ [w]) A tail hA
      refine ⟨preOut, heq, ?_⟩
      rw [hlen]
      simp only [List.length_append, List.length_cons, List.length_nil]
      omega
    · rw [if_neg hw]
      obtain ⟨preOut, heq, hlen⟩ := ih w.end_ [] A tail hA
      refine ⟨fill_gap pending anchor ((w.start - anchor) / (pending.length : ℚ)) ++
        w :: preOut, ?_, ?_⟩
      · rw [heq]
        simp
      · rw [List.length_append, fill_gap_length]
        simp only [List.length_cons, List.length_nil] at hlen ⊢
        omega

/-- Generic decomposition of the interpolation pass at an unresolved run
closed by a resolved word `B`: the pending words and the run are filled
evenly over the span from the anchor to `B`'s start. -/
theorem interpAux_fill_run :
    ∀ (gap : List Wd) (pending : List Wd) (t : ℚ) (B : Wd) (post : List Wd),
      (∀ w ∈ gap, w.start = -1) → B.start ≠ -1 →
      interpAux (gap ++ B :: post) t pending =
        fill_gap (pending ++ gap) t
            ((B.start - t) / (((pending ++ gap).length : ℚ))) ++
          B :: interpAux post B.end_ [] := by
  intro gap
  induction gap with
  | nil =>
    intro pending t B post _ hB
    rw [List.nil_append, interpAux, if_neg hB]
    simp
  | cons w gap ih =>
    intro pending t B post hall hB
    rw [List.cons_append, interpAux, if_pos (hall w (List.mem_cons_self w gap))]
    rw [ih (pending ++ [w]) t B post (fun x hx => hall x (List.mem_cons_of_mem w hx)) hB]
    simp

/-! ## Structural facts about the embedded sequence matcher -/

theorem commonRun_le_left [DecidableEq α] :
    ∀ (l1 l2 : List α), commonRun l1 l2 ≤ l1.length := by
  intro l1
  induction l1 with
  | nil => intro l2; cases l2 <;> simp [commonRun]
  | cons x xs ih =>
    intro l2
    cases l2 with
    | nil => simp [commonRun]
    | cons y ys =>
      rw [commonRun]
      split
      · have := ih ys
        simp
        omega
      · simp

theorem commonRun_getElem [DecidableEq α] :
    ∀ (l1 l2 : List α) (t : Nat), t < commonRun l1 l2 → l1[t]? = l2[t]? := by
  intro l1
  induction l1 with
  | nil => intro l2 t ht; cases l2 <;> simp [commonRun] at ht
  | cons x xs ih =>
    intro l2 t ht
    cases l2 with
    | nil => simp [commonRun] at ht
    | cons y ys =>
      rw [commonRun] at ht
      by_cases hxy : x = y
      · rw [if_pos hxy] at ht
        cases t with
        | zero => simp [hxy]
        | succ m =>
          have := ih ys m (by omega)
          simpa using this
      · rw [if_neg hxy] at ht
        omega

theorem commonRun_comm_le [DecidableEq α] :
    ∀ (l1 l2 : List α), commonRun l1 l2 ≤ l2.length := by
  intro l1
  induction l1 with
  | nil => intro l2; cases l2 <;> simp [commonRun]
  | cons x xs ih =>
    intro l2
    cases l2 with
    | nil => simp [commonRun]
    | cons y ys =>
      rw [commonRun]
      split
      · have := ih ys
        simp
        omega
      · simp

theorem fwdRun_add_le_left [DecidableEq α] {a b : List α} {i j ahi bhi : Nat}
    (hahi : ahi ≤ a.length) (h : 0 < fwdRun a b i j ahi bhi) :
    i + fwdRun a b i j ahi bhi ≤ ahi := by
  have h1 := commonRun_le_left ((a.take ahi).drop i) ((b.take bhi).drop j)
  rw [List.length_drop, List.length_take] at h1
  unfold fwdRun at h ⊢
  omega

theorem fwdRun_add_le_right [DecidableEq α] {a b : List α} {i j ahi bhi : Nat}
    (hbhi : bhi ≤ b.length) (h : 0 < fwdRun a b i j ahi bhi) :
    j + fwdRun a b i j ahi bhi ≤ bhi := by
  have h1 := commonRun_comm_le ((a.take ahi).drop i) ((b.take bhi).drop j)
  rw [List.length_drop, List.length_take] at h1
  unfold fwdRun at h ⊢
  omega

theorem fwdRun_matches [DecidableEq α] {a b : List α} {i j ahi bhi : Nat}
    (hahi : ahi ≤ a.length) (hbhi : bhi ≤ b.length) :
    ∀ t, t < fwdRun a b i j ahi bhi → a[i + t]? = b[j + t]? := by
  intro t ht
  have hmatch := commonRun_getElem ((a.take ahi).drop i) ((b.take bhi).drop j) t ht
  have hla := commonRun_le_left ((a.take ahi).drop i) ((b.take bhi).drop j)
  have hlb := commonRun_comm_le ((a.take ahi).drop i) ((b.take bhi).drop j)
  rw [List.length_drop, List.length_take] at hla hlb
  rw [List.getElem?_drop, List.getElem?_drop, List.getElem?_take, List.getElem?_take]
    at hmatch
  unfold fwdRun at ht
  rw [if_pos (by omega), if_pos (by omega)] at hmatch
  exact hmatch

/-- The invariant maintained by the best-block fold of
`find_longest_match`. -/
def FlmInv [DecidableEq α] (a b : List α) (alo ahi blo bhi : Nat) (m : Block) : Prop :=
  m = ⟨alo, blo, 0⟩ ∨
    (alo ≤ m.i ∧ blo ≤ m.j ∧ 0 < m.k ∧ m.k ≤ fwdRun a b m.i m.j ahi bhi)

theorem flm_inv [DecidableEq α] (a b : List α) (alo ahi blo bhi : Nat) :
    FlmInv a b alo ahi blo bhi (find_longest_match a b alo ahi blo bhi) := by
  unfold find_longest_match
  apply List.foldlRecOn
  · exact Or.inl rfl
  · intro best hbest di _
    apply List.foldlRecOn
    · exact hbest
    · intro acc hacc dj _
      by_cases hlt : acc.k < fwdRun a b (alo + di) (blo + dj) ahi bhi
      · rw [if_pos hlt]
        refine Or.inr ⟨?_, ?_, ?_, ?_⟩
        · show alo ≤ alo + di
          omega
        · show blo ≤ blo + dj
          omega
        · show 0 < fwdRun a b (alo + di) (blo + dj) ahi bhi
          omega
        · exact le_refl _
      · rw [if_neg hlt]
        exact hacc

/-- Window containment and element-wise matching of a block. -/
def BlockOK [DecidableEq α] (a b : List α) (blk : Block) : Prop :=
  blk.i + blk.k ≤ a.length ∧ blk.j + blk.k ≤ b.length ∧
    ∀ t, t < blk.k → a[blk.i + t]? = b[blk.j + t]?

/-- Blocks chained in order between the running position `(ci, cj)` and
the upper bounds `(hi, hj)`. -/
def ChainedB : Nat → Nat → Nat → Nat → List Block → Prop
  | ci, cj, hi, hj, [] => ci ≤ hi ∧ cj ≤ hj
  | ci, cj, hi, hj, blk :: rest =>
    ci ≤ blk.i ∧ cj ≤ blk.j ∧ ChainedB (blk.i + blk.k) (blk.j + blk.k) hi hj rest

theorem chainedB_mono {ci cj ci' cj' hi hj : Nat} {l : List Block}
    (h1 : ci' ≤ ci) (h2 : cj' ≤ cj) (h : ChainedB ci cj hi hj l) :
    ChainedB ci' cj' hi hj l := by
  cases l with
  | nil => exact ⟨le_trans h1 h.1, le_trans h2 h.2⟩
  | cons blk rest => exact ⟨le_trans h1 h.1, le_trans h2 h.2.1, h.2.2⟩

theorem chainedB_le : ∀ (l : List Block) (ci cj hi hj : Nat),
    ChainedB ci cj hi hj l → ci ≤ hi ∧ cj ≤ hj := by
  intro l
  induction l with
  | nil => intro ci cj hi hj h; exact h
  | cons blk rest ih =>
    intro ci cj hi hj h
    obtain ⟨h1, h2, h3⟩ := h
    obtain ⟨g1, g2⟩ := ih (blk.i + blk.k) (blk.j + blk.k) hi hj h3
    exact ⟨by omega, by omega⟩

theorem chainedB_append : ∀ (l1 l2 : List Block) (ci cj mi mj hi hj : Nat),
    ChainedB ci cj mi mj l1 → ChainedB mi mj hi hj l2 →
    ChainedB ci cj hi hj (l1 ++ l2) := by
  intro l1
  induction l1 with
  | nil =>
    intro l2 ci cj mi mj hi hj h1 h2
    exact chainedB_mono h1.1 h1.2 h2
  | cons blk rest ih =>
    intro l2 ci cj mi mj hi hj h1 h2
    exact ⟨h1.1, h1.2.1, ih l2 _ _ mi mj hi hj h1.2.2 h2⟩

theorem blocksAux_chain [DecidableEq α] (a b : List α) :
    ∀ (fuel alo ahi blo bhi : Nat),
      ahi ≤ a.length → bhi ≤ b.length → alo ≤ ahi → blo ≤ bhi →
      ChainedB alo blo ahi bhi (blocksAux a b fuel alo ahi blo bhi) := by
  intro fuel
  induction fuel with
  | zero => intro alo ahi blo bhi _ _ h3 h4; exact ⟨h3, h4⟩
  | succ n ih =>
    intro alo ahi blo bhi h1 h2 h3 h4
    rw [blocksAux]
    by_cases hk : (find_longest_match a b alo ahi blo bhi).k = 0
    · rw [if_pos hk]
      exact ⟨h3, h4⟩
    · rw [if_neg hk]
      have hinv := flm_inv a b alo ahi blo bhi
      rcases hinv with heq | ⟨hi1, hj1, hk1, hle⟩
      · rw [heq] at hk
        simp at hk
      · set m := find_longest_match a b alo ahi blo bhi with hm
        have hfw : 0 < fwdRun a b m.i m.j ahi bhi := by omega
        have hik : m.i + m.k ≤ ahi := by
          have h5 : m.i + fwdRun a b m.i m.j ahi bhi ≤ ahi := fwdRun_add_le_left h1 hfw
          omega
        have hjk : m.j + m.k ≤ bhi := by
          have h5 : m.j + fwdRun a b m.i m.j ahi bhi ≤ bhi := fwdRun_add_le_right h2 hfw
          omega
        apply chainedB_append _ _ alo blo m.i m.j ahi bhi
        · exact ih alo m.i blo m.j (by omega) (by omega) (by omega) (by omega)
        · exact ⟨le_refl _, le_refl _,
            ih (m.i + m.k) ahi (m.j + m.k) bhi h1 h2 hik hjk⟩

theorem blocksAux_ok [DecidableEq α] (a b : List α) :
    ∀ (fuel alo ahi blo bhi : Nat),
      ahi ≤ a.length → bhi ≤ b.length →
      ∀ blk ∈ blocksAux a b fuel alo ahi blo bhi, BlockOK a b blk := by
  intro fuel
  induction fuel with
  | zero => intro alo ahi blo bhi _ _ blk hblk; simp [blocksAux] at hblk
  | succ n ih =>
    intro alo ahi blo bhi h1 h2 blk hblk
    rw [blocksAux] at hblk
    by_cases hk : (find_longest_match a b alo ahi blo bhi).k = 0
    · rw [if_pos hk] at hblk
      simp at hblk
    · rw [if_neg hk] at hblk
      have hinv := flm_inv a b alo ahi blo bhi
      rcases hinv with heq | ⟨hi1, hj1, hk1, hle⟩
      · rw [heq] at hk
        simp at hk
      · set m := find_longest_match a b alo ahi blo bhi with hm
        have hfw : 0 < fwdRun a b m.i m.j ahi bhi := by omega
        have hik : m.i + m.k ≤ ahi := by
          have h5 : m.i + fwdRun a b m.i m.j ahi bhi ≤ ahi := fwdRun_add_le_left h1 hfw
          omega
        have hjk : m.j + m.k ≤ bhi := by
          have h5 : m.j + fwdRun a b m.i m.j ahi bhi ≤ bhi := fwdRun_add_le_right h2 hfw
          omega
        rw [List.mem_append] at hblk
        rcases hblk with hleft | hmid
        · exact ih alo m.i blo m.j (by omega) (by omega) blk hleft
        · rw [List.mem_cons] at hmid
          rcases hmid with heq2 | hright
          · subst heq2
            refine ⟨by omega, by omega, ?_⟩
            intro t ht
            exact fwdRun_matches h1 h2 t (by omega)
          · exact ih (m.i + m.k) ahi (m.j + m.k) bhi h1 h2 blk hright

theorem mergeBlocks_chain : ∀ (l : List Block) (cur : Block) (ci cj hi hj : Nat),
    ci ≤ cur.i → cj ≤ cur.j →
    ChainedB (cur.i + cur.k) (cur.j + cur.k) hi hj l →
    ChainedB ci cj hi hj (mergeBlocks cur l) := by
  intro l
  induction l with
  | nil =>
    intro cur ci cj hi hj h1 h2 h3
    rw [mergeBlocks]
    obtain ⟨g1, g2⟩ := h3
    by_cases hk : cur.k = 0
    · rw [if_pos hk]
      exact ⟨by omega, by omega⟩
    · rw [if_neg hk]
      exact ⟨h1, h2, g1, g2⟩
  | cons b rest ih =>
    intro cur ci cj hi hj h1 h2 h3
    obtain ⟨hb1, hb2, hb3⟩ := h3
    rw [mergeBlocks]
    by_cases hadj : cur.i + cur.k = b.i ∧ cur.j + cur.k = b.j
    · rw [if_pos hadj]
      apply ih ⟨cur.i, cur.j, cur.k + b.k⟩ ci cj hi hj h1 h2
      show ChainedB (cur.i + (cur.k + b.k)) (cur.j + (cur.k + b.k)) hi hj rest
      have e1 : cur.i + (cur.k + b.k) = b.i + b.k := by omega
      have e2 : cur.j + (cur.k + b.k) = b.j + b.k := by omega
      rw [e1, e2]
      exact hb3
    · rw [if_neg hadj]
      by_cases hk : cur.k = 0
      · rw [if_pos hk]
        rw [List.nil_append]
        exact ih b ci cj hi hj (by omega) (by omega) hb3
      · rw [if_neg hk]
        exact ⟨h1, h2, ih b (cur.i + cur.k) (cur.j + cur.k) hi hj hb1 hb2 hb3⟩

theorem mergeBlocks_ok [DecidableEq α] {a b : List α} :
    ∀ (l : List Block) (cur : Block),
      BlockOK a b cur → (∀ blk ∈ l, BlockOK a b blk) →
      ∀ blk ∈ mergeBlocks cur l, BlockOK a b blk := by
  intro l
  induction l with
  | nil =>
    intro cur hcur _ blk hblk
    rw [mergeBlocks] at hblk
    by_cases hk : cur.k = 0
    · rw [if_pos hk] at hblk
      simp at hblk
    · rw [if_neg hk] at hblk
      rw [List.mem_singleton] at hblk
      subst hblk
      exact hcur
  | cons bb rest ih =>
    intro cur hcur hrest blk hblk
    rw [mergeBlocks] at hblk
    have hbbok : BlockOK a b bb := hrest bb (List.mem_cons_self bb rest)
    by_cases hadj : cur.i + cur.k = bb.i ∧ cur.j + cur.k = bb.j
    · rw [if_pos hadj] at hblk
      apply ih ⟨cur.i, cur.j, cur.k + bb.k⟩ _
        (fun x hx => hrest x (List.mem_cons_of_mem bb hx)) blk hblk
      obtain ⟨hc1, hc2, hc3⟩ := hcur
      obtain ⟨hd1, hd2, hd3⟩ := hbbok
      refine ⟨by simp; omega, by simp; omega, ?_⟩
      intro t ht
      show a[cur.i + t]? = b[cur.j + t]?
      by_cases htk : t < cur.k
      · exact hc3 t htk
      · have e1 : cur.i + t = bb.i + (t - cur.k) := by omega
        have e2 : cur.j + t = bb.j + (t - cur.k) := by omega
        rw [e1, e2]
        exact hd3 (t - cur.k) (by simp at ht; omega)
    · rw [if_neg hadj] at hblk
      rw [List.mem_append] at hblk
      rcases hblk with hone | hrec
      · by_cases hk : cur.k = 0
        · rw [if_pos hk] at hone
          simp at hone
        · rw [if_neg hk] at hone
          rw [List.mem_singleton] at hone
          subst hone
          exact hcur
      · exact ih bb hbbok (fun x hx => hrest x (List.mem_cons_of_mem bb hx)) blk hrec

theorem matching_blocks_chain [DecidableEq α] (a b : List α) :
    ChainedB 0 0 a.length b.length (get_matching_blocks a b) := by
  unfold get_matching_blocks
  apply chainedB_append _ _ 0 0 a.length b.length a.length b.length
  · apply mergeBlocks_chain _ ⟨0, 0, 0⟩ 0 0 a.length b.length (le_refl 0) (le_refl 0)
    show ChainedB (0 + 0) (0 + 0) a.length b.length _
    exact blocksAux_chain a b _ 0 a.length 0 b.length (le_refl _) (le_refl _)
      (Nat.zero_le _) (Nat.zero_le _)
  · refine ⟨le_refl _, le_refl _, ?_, ?_⟩ <;> simp

theorem matching_blocks_ok [DecidableEq α] (a b : List α) :
    ∀ blk ∈ get_matching_blocks a b, BlockOK a b blk := by
  unfold get_matching_blocks
  intro blk hblk
  rw [List.mem_append] at hblk
  rcases hblk with hmerged | hterm
  · apply mergeBlocks_ok _ ⟨0, 0, 0⟩ ?_ ?_ blk hmerged
    · exact ⟨by simp, by simp, fun t ht => absurd ht (by simp)⟩
    · exact blocksAux_ok a b _ 0 a.length 0 b.length (le_refl _) (le_refl _)
  · rw [List.mem_singleton] at hterm
    subst hterm
    exact ⟨by simp, by simp, fun t ht => absurd ht (by simp)⟩

/-! ## Tiling of the reference tokens by the opcodes -/

theorem zipWith_words : ∀ (s : List String) (c : List Wd), s.length = c.length →
    (List.zipWith (fun (w : String) (m : Wd) => (⟨w, m.start, m.end_⟩ : Wd)) s c).map
        Wd.word = s := by
  intro s
  induction s with
  | nil => intro c _; simp
  | cons w ws ih =>
    intro c hlen
    cases c with
    | nil => simp at hlen
    | cons m ms =>
      simp only [List.zipWith_cons_cons, List.map_cons]
      rw [ih ms (by simpa using hlen)]

theorem distributeEven_words : ∀ (s : List String) (t wd : ℚ),
    (distributeEven s t wd).map Wd.word = s := by
  intro s
  induction s with
  | nil => intro t wd; rfl
  | cons w ws ih =>
    intro t wd
    simp only [distributeEven, List.map_cons]
    rw [ih (t + wd) wd]

theorem mfaChunk_ne_nil {md : List Wd} {op : Opcode}
    (hj : op.j1 < op.j2) (hle : op.j1 < md.length) : mfaChunk md op ≠ [] := by
  unfold mfaChunk
  intro hcontra
  have hl := congrArg List.length hcontra
  rw [List.length_take, List.length_drop] at hl
  simp at hl
  omega

theorem processOpcode_equal {e : List String} {md : List Wd} {op : Opcode}
    (h : op.tag = .equal) : processOpcode e md op = mfaChunk md op := by
  unfold processOpcode
  rw [if_pos h]

theorem processOpcode_insert {e : List String} {md : List Wd} {op : Opcode}
    (h : op.tag = .insert) : processOpcode e md op = [] := by
  unfold processOpcode
  rw [h]
  simp

theorem processOpcode_replace_words {e : List String} {md : List Wd} {op : Opcode}
    (htag : op.tag = .replace) (hj : op.j1 < op.j2) (hjle : op.j1 < md.length) :
    (processOpcode e md op).map Wd.word = scriptChunk e op := by
  unfold processOpcode
  rw [htag, if_neg (fun hc => Tag.noConfusion hc), if_pos rfl,
    if_neg (mfaChunk_ne_nil hj hjle)]
  by_cases hlen : (mfaChunk md op).length = (scriptChunk e op).length
  · rw [if_pos hlen]
    exact zipWith_words _ _ hlen.symm
  · rw [if_neg hlen]
    exact distributeEven_words _ _ _

theorem blockOK_chunk_eq {e mw : List String} {blk : Block}
    (h : BlockOK e mw blk) :
    (mw.drop blk.j).take blk.k = (e.drop blk.i).take blk.k := by
  obtain ⟨h1, h2, h3⟩ := h
  apply List.ext_getElem?_iff.mpr
  intro n
  rw [List.getElem?_take, List.getElem?_take, List.getElem?_drop, List.getElem?_drop]
  by_cases hn : n < blk.k
  · rw [if_pos hn, if_pos hn]
    exact (h3 n hn).symm
  · rw [if_neg hn, if_neg hn]

theorem take_drop_concat (e : List String) (i m : Nat) :
    (e.drop i).take m ++ e.drop (i + m) = e.drop i := by
  have h1 : (e.drop i).drop m = e.drop (i + m) := by
    rw [List.drop_drop]
  rw [← h1, List.take_append_drop]

theorem take_drop_concat2 (e : List String) (ci bi : Nat) (h : ci ≤ bi) :
    (e.drop ci).take (bi - ci) ++ e.drop bi = e.drop ci := by
  have h2 := take_drop_concat e ci (bi - ci)
  rwa [show ci + (bi - ci) = bi by omega] at h2

theorem opcodesLoop_cons (ci cj : Nat) (blk : Block) (rest : List Block) :
    opcodesLoop ci cj (blk :: rest) =
      ((if ci < blk.i ∧ cj < blk.j then [(⟨.replace, ci, blk.i, cj, blk.j⟩ : Opcode)]
        else if ci < blk.i then [⟨.delete, ci, blk.i, cj, blk.j⟩]
        else if cj < blk.j then [⟨.insert, ci, blk.i, cj, blk.j⟩]
        else []) ++
       (if blk.k = 0 then [] else [⟨.equal, blk.i, blk.i + blk.k, blk.j, blk.j + blk.k⟩])) ++
      opcodesLoop (blk.i + blk.k) (blk.j + blk.k) rest := by
  rfl

theorem opcodesLoop_last (ci cj la lb : Nat) :
    opcodesLoop ci cj [⟨la, lb, 0⟩] =
      (if ci < la ∧ cj < lb then [(⟨.replace, ci, la, cj, lb⟩ : Opcode)]
       else if ci < la then [⟨.delete, ci, la, cj, lb⟩]
       else if cj < lb then [⟨.insert, ci, la, cj, lb⟩]
       else []) := by
  show ((if ci < la ∧ cj < lb then [(⟨.replace, ci, la, cj, lb⟩ : Opcode)]
       else if ci < la then [⟨.delete, ci, la, cj, lb⟩]
       else if cj < lb then [⟨.insert, ci, la, cj, lb⟩]
       else []) ++ []) ++ [] = _
  rw [List.append_nil, List.append_nil]

/-- The opcode walk over chained, matching blocks terminated by the
sentinel block reproduces, through the repair function per-opcode word
output, exactly the reference suffix from the current position — as long
as no `delete` opcode is emitted. -/
theorem opcodesLoop_repair_words (e : List String) (md : List Wd)
    (lb : Nat) (hlb : lb ≤ md.length) :
    ∀ (blocks : List Block) (ci cj : Nat),
      ChainedB ci cj e.length lb blocks →
      (∀ blk ∈ blocks, BlockOK e (md.map Wd.word) blk) →
      (∀ op ∈ opcodesLoop ci cj (blocks ++ [⟨e.length, lb, 0⟩]),
        op.tag ≠ .delete) →
      (opcodesLoop ci cj (blocks ++ [⟨e.length, lb, 0⟩])).flatMap
          (fun op => (processOpcode e md op).map Wd.word) = e.drop ci := by
  intro blocks
  induction blocks with
  | nil =>
    intro ci cj hchain _ hnodel
    obtain ⟨hci, hcj⟩ := hchain
    rw [List.nil_append, opcodesLoop_last]
    by_cases h1 : ci < e.length
    · by_cases h2 : cj < lb
      · rw [if_pos (⟨h1, h2⟩ : ci < e.length ∧ cj < lb)]
        simp only [List.flatMap_cons, List.flatMap_nil, List.append_nil]
        rw [processOpcode_replace_words rfl (show cj < lb from h2)
          (show cj < md.length by omega)]
        show (e.drop ci).take (e.length - ci) = e.drop ci
        have he : e.length - ci = (e.drop ci).length := by rw [List.length_drop]
        rw [he, List.take_length]
      · exfalso
        apply hnodel ⟨.delete, ci, e.length, cj, lb⟩ _ rfl
        rw [List.nil_append, opcodesLoop_last]
        rw [if_neg (fun hc => h2 hc.2), if_pos h1]
        exact List.mem_singleton.mpr rfl
    · rw [if_neg (fun hc => h1 hc.1), if_neg h1]
      have hcieq : ci = e.length := by omega
      by_cases h2 : cj < lb
      · rw [if_pos h2]
        simp only [List.flatMap_cons, List.flatMap_nil, List.append_nil]
        rw [processOpcode_insert rfl]
        rw [hcieq, List.drop_length]
        rfl
      · rw [if_neg h2]
        rw [hcieq, List.drop_length]
        rfl
  | cons blk rest ih =>
    intro ci cj hchain hok hnodel
    obtain ⟨hcb1, hcb2, hcc⟩ := hchain
    obtain ⟨hb1, hb2, hb3⟩ := hok blk (List.mem_cons_self blk rest)
    rw [List.length_map] at hb2
    rw [List.cons_append, opcodesLoop_cons]
    rw [List.flatMap_append, List.flatMap_append]
    have hrec : (opcodesLoop (blk.i + blk.k) (blk.j + blk.k)
        (rest ++ [⟨e.length, lb, 0⟩])).flatMap
          (fun op => (processOpcode e md op).map Wd.word) =
        e.drop (blk.i + blk.k) := by
      apply ih (blk.i + blk.k) (blk.j + blk.k) hcc
        (fun x hx => hok x (List.mem_cons_of_mem blk hx))
      intro op hop
      apply hnodel op
      rw [List.cons_append, opcodesLoop_cons]
      exact List.mem_append_right _ hop
    have hequal : ((if blk.k = 0 then ([] : List Opcode)
          else [⟨.equal, blk.i, blk.i + blk.k, blk.j, blk.j + blk.k⟩]).flatMap
            (fun op => (processOpcode e md op).map Wd.word)) =
        (e.drop blk.i).take blk.k := by
      by_cases hk : blk.k = 0
      · rw [if_pos hk, hk]
        simp
      · rw [if_neg hk]
        simp only [List.flatMap_cons, List.flatMap_nil, List.append_nil]
        rw [processOpcode_equal rfl]
        show ((md.drop blk.j).take (blk.j + blk.k - blk.j)).map Wd.word = _
        have he : blk.j + blk.k - blk.j = blk.k := by omega
        rw [he, List.map_take, List.map_drop]
        exact blockOK_chunk_eq ⟨hb1, by rw [List.length_map]; exact hb2, hb3⟩
    have hgap : ((if ci < blk.i ∧ cj < blk.j then
            [(⟨.replace, ci, blk.i, cj, blk.j⟩ : Opcode)]
          else if ci < blk.i then [⟨.delete, ci, blk.i, cj, blk.j⟩]
          else if cj < blk.j then [⟨.insert, ci, blk.i, cj, blk.j⟩]
          else []).flatMap (fun op => (processOpcode e md op).map Wd.word)) =
        (e.drop ci).take (blk.i - ci) := by
      by_cases h1 : ci < blk.i
      · by_cases h2 : cj < blk.j
        · rw [if_pos (⟨h1, h2⟩ : ci < blk.i ∧ cj < blk.j)]
          simp only [List.flatMap_cons, List.flatMap_nil, List.append_nil]
          rw [processOpcode_replace_words rfl (show cj < blk.j from h2)
            (show cj < md.length by omega)]
          rfl
        · exfalso
          apply hnodel ⟨.delete, ci, blk.i, cj, blk.j⟩ _ rfl
          rw [List.cons_append, opcodesLoop_cons]
          apply List.mem_append_left
          apply List.mem_append_left
          rw [if_neg (fun hc => h2 hc.2), if_pos h1]
          exact List.mem_singleton.mpr rfl
      · have hcieq : ci = blk.i := by omega
        have htake : (e.drop ci).take (blk.i - ci) = [] := by
          rw [hcieq]
          simp
        rw [if_neg (fun hc => h1 hc.1), if_neg h1, htake]
        by_cases h2 : cj < blk.j
        · rw [if_pos h2]
          simp only [List.flatMap_cons, List.flatMap_nil, List.append_nil]
          rw [processOpcode_insert rfl]
          rfl
        · rw [if_neg h2]
          rfl
    rw [hgap, hequal, hrec]
    rw [List.append_assoc, take_drop_concat e blk.i blk.k,
      take_drop_concat2 e ci blk.i hcb1]

/-- When the token-level opcodes contain no `delete`, the repair output
words are exactly the expected tokens. -/
theorem repair_words_no_delete (e : List String) (md : List Wd)
    (hnodel : ∀ op ∈ get_opcodes e (md.map Wd.word), op.tag ≠ .delete) :
    (_repair_unknown_tokens_with_difflib e md).map Wd.word = e := by
  unfold _repair_unknown_tokens_with_difflib
  rw [List.map_flatMap]
  unfold get_opcodes get_matching_blocks at hnodel ⊢
  have hchain : ChainedB 0 0 e.length ((md.map Wd.word).length)
      (mergeBlocks ⟨0, 0, 0⟩ (blocksAux e (md.map Wd.word)
        (e.length + (md.map Wd.word).length + 1) 0 e.length 0
        (md.map Wd.word).length)) := by
    apply mergeBlocks_chain _ ⟨0, 0, 0⟩ 0 0 e.length _ (le_refl 0) (le_refl 0)
    show ChainedB (0 + 0) (0 + 0) e.length (md.map Wd.word).length _
    exact blocksAux_chain e (md.map Wd.word) _ 0 e.length 0 (md.map Wd.word).length
      (le_refl _) (le_refl _) (Nat.zero_le _) (Nat.zero_le _)
  have hok : ∀ blk ∈ mergeBlocks ⟨0, 0, 0⟩ (blocksAux e (md.map Wd.word)
      (e.length + (md.map Wd.word).length + 1) 0 e.length 0
      (md.map Wd.word).length), BlockOK e (md.map Wd.word) blk := by
    apply mergeBlocks_ok _ ⟨0, 0, 0⟩ ?_ ?_
    · exact ⟨by simp, by simp, fun t ht => absurd ht (by simp)⟩
    · exact blocksAux_ok e (md.map Wd.word) _ 0 e.length 0 (md.map Wd.word).length
        (le_refl _) (le_refl _)
  have hres := opcodesLoop_repair_words e md ((md.map Wd.word).length)
    (by rw [List.length_map]) _ 0 0 hchain hok hnodel
  rw [hres]
  exact List.drop_zero e

/-! ## Slot-level descriptions of the even-distribution helpers -/

theorem distributeEven_length : ∀ (s : List String) (t wd : ℚ),
    (distributeEven s t wd).length = s.length := by
  intro s
  induction s with
  | nil => intro t wd; rfl
  | cons w ws ih => intro t wd; simp [distributeEven, ih]

theorem distributeEven_getD : ∀ (s : List String) (t wd : ℚ) (k : Nat), k < s.length →
    (distributeEven s t wd).getD k dW =
      ⟨s.getD k "", round3 (t + (k : ℚ) * wd), round3 (t + ((k : ℚ) + 1) * wd)⟩ := by
  intro s
  induction s with
  | nil => intro t wd k hk; simp at hk
  | cons w ws ih =>
    intro t wd k hk
    cases k with
    | zero =>
      simp only [distributeEven, List.getD_cons_zero]
      norm_num
    | succ m =>
      have hm : m < ws.length := by simpa using hk
      simp only [distributeEven, List.getD_cons_succ]
      rw [ih (t + wd) wd m hm]
      have e1 : t + wd + (m : ℚ) * wd = t + ((m + 1 : ℕ) : ℚ) * wd := by
        push_cast
        ring
      have e2 : t + wd + ((m : ℚ) + 1) * wd = t + (((m + 1 : ℕ) : ℚ) + 1) * wd := by
        push_cast
        ring
      rw [e1, e2]

theorem zipWith_copy_getD : ∀ (s : List String) (c : List Wd) (k : Nat),
    k < s.length → k < c.length →
    (List.zipWith (fun (w : String) (m : Wd) => (⟨w, m.start, m.end_⟩ : Wd)) s c).getD
        k dW =
      ⟨s.getD k "", (c.getD k dW).start, (c.getD k dW).end_⟩ := by
  intro s
  induction s with
  | nil => intro c k hk _; simp at hk
  | cons w ws ih =>
    intro c k hk hkc
    cases c with
    | nil => simp at hkc
    | cons m ms =>
      cases k with
      | zero => simp
      | succ n =>
        simp only [List.zipWith_cons_cons, List.getD_cons_succ]
        exact ih ms n (by simpa using hk) (by simpa using hkc)

theorem processOpcode_replace_caseA {e : List String} {md : List Wd} {op : Opcode}
    (htag : op.tag = .replace) (hne : mfaChunk md op ≠ [])
    (hlen : (mfaChunk md op).length = (scriptChunk e op).length) :
    processOpcode e md op =
      List.zipWith (fun (w : String) (m : Wd) => (⟨w, m.start, m.end_⟩ : Wd))
        (scriptChunk e op) (mfaChunk md op) := by
  unfold processOpcode
  rw [htag, if_neg (fun hc => Tag.noConfusion hc), if_pos rfl, if_neg hne, if_pos hlen]

theorem processOpcode_replace_caseB {e : List String} {md : List Wd} {op : Opcode}
    (htag : op.tag = .replace) (hne : mfaChunk md op ≠ [])
    (hlen : (mfaChunk md op).length ≠ (scriptChunk e op).length) :
    processOpcode e md op =
      distributeEven (scriptChunk e op) ((mfaChunk md op).headD dW).start
        ((((mfaChunk md op).getLastD dW).end_ - ((mfaChunk md op).headD dW).start) /
          ((scriptChunk e op).length : ℚ)) := by
  unfold processOpcode
  rw [htag, if_neg (fun hc => Tag.noConfusion hc), if_pos rfl, if_neg hne, if_neg hlen]

theorem getD_map_wd (f : Wd → Wd) : ∀ (l : List Wd) (k : Nat), k < l.length →
    (l.map f).getD k dW = f (l.getD k dW) := by
  intro l
  induction l with
  | nil => intro k hk; simp at hk
  | cons w rest ih =>
    intro k hk
    cases k with
    | zero => simp
    | succ m => simpa using ih m (by simpa using hk)

/-! ## The terminal save step always raises -/

theorem os_path_join_ne_empty (a b : String) (hb : b ≠ "") :
    os_path_join a b ≠ "" := by
  unfold os_path_join
  split
  · exact hb
  · intro hc
    have hlen := congrArg String.length hc
    rw [String.length_append, String.length_append] at hlen
    have h1 : ("/" : String).length = 1 := rfl
    have h2 : ("" : String).length = 0 := rfl
    omega

theorem save_json_file_truthy (l : List Wd) (p : String) (hp : p ≠ "") :
    save_json_file l p =
      Except.error "TypeError: expected str, bytes or os.PathLike object, not list" := by
  unfold save_json_file
  rw [if_neg hp]

/-- The committed engine raises the same exception for every input: the
swapped-argument save call of line 173 fails before the `return`. -/
theorem align_v6_run_raises (tokens : List String) (whisper : List Wd)
    (output_folder_path : String) :
    align_v6_run tokens whisper output_folder_path =
      Except.error "TypeError: expected str, bytes or os.PathLike object, not list" := by
  unfold align_v6_run
  rw [save_json_file_truthy _ _ (os_path_join_ne_empty _ _ (by decide))]

/-! ## Claim theorems -/

/-- The final timeline of the character-granularity engine is a
lower-bounded chain starting at `0`. -/
theorem align_outChain (tokens : List String) (whisper : List Wd) :
    OutChain 0 (align_transcription_to_script_and_correct_timestamps tokens whisper) := by
  have h := interp_chain (projectTokens
      (get_opcodes (String.join tokens).toList (whisperChars whisper))
      (whisperTimeMap whisper) tokens 0 0) 0 [] (le_refl 0)
    (rawChain_project (get_opcodes (String.join tokens).toList (whisperChars whisper))
      (whisperTimeMap whisper) tokens 0 0 (le_refl 0))
  rw [round2_zero] at h
  exact h

/-- C1 (amended): for every input, the character-granularity engine's
output satisfies the weak monotonicity invariants: adjacent words never
overlap (`output[i].end <= output[i+1].start`) and every word's start is
at most its end (`output[i].start <= output[i].end`).  The strict form
`output[i].end > output[i].start` claimed by the spec fails (see the
counterexample): an unresolved token interpolated over a zero-width span
receives a zero-duration slot. -/
theorem claim1_timeline_weak_monotonicity (tokens : List String) (whisper : List Wd) :
    (∀ k, k + 1 <
        (align_transcription_to_script_and_correct_timestamps tokens whisper).length →
      ((align_transcription_to_script_and_correct_timestamps tokens whisper).getD
          k dW).end_ ≤
        ((align_transcription_to_script_and_correct_timestamps tokens whisper).getD
          (k + 1) dW).start) ∧
    (∀ k, k <
        (align_transcription_to_script_and_correct_timestamps tokens whisper).length →
      ((align_transcription_to_script_and_correct_timestamps tokens whisper).getD
          k dW).start ≤
        ((align_transcription_to_script_and_correct_timestamps tokens whisper).getD
          k dW).end_) := by
  have hchain := align_outChain tokens whisper
  exact ⟨fun k hk => outChain_adjacent _ 0 hchain k hk,
    fun k hk => (outChain_index _ 0 hchain k hk).2⟩

/-- Witness for C1: the weak monotonicity theorem applied at a concrete
input. -/
theorem claim1_timeline_weak_monotonicity_witness :
    0 + 1 < (align_transcription_to_script_and_correct_timestamps ["a", "b"] []).length ∧
    ((align_transcription_to_script_and_correct_timestamps ["a", "b"] []).getD
        0 dW).end_ ≤
      ((align_transcription_to_script_and_correct_timestamps ["a", "b"] []).getD
        (0 + 1) dW).start :=
  ⟨by with_unfolding_all decide,
   (claim1_timeline_weak_monotonicity ["a", "b"] []).1 0 (by with_unfolding_all decide)⟩

/-- C1 counterexample: with reference tokens `a b c` and fragments
`a = (0, 1)` and `c = (0.2, 2)`, token `c`'s raw start `0.2` is clamped
up to `1`, so the unresolved token `b` is interpolated over the empty
span `[1, 1]` and receives `start = end = 1`, refuting the claimed
strict inequality `output[i].end > output[i].start`. -/
theorem claim1_strict_duration_counterexample :
    ¬ (((align_transcription_to_script_and_correct_timestamps ["a", "b", "c"]
          [⟨"a", 0, 1⟩, ⟨"c", 1/5, 2⟩]).getD 1 dW).start <
       ((align_transcription_to_script_and_correct_timestamps ["a", "b", "c"]
          [⟨"a", 0, 1⟩, ⟨"c", 1/5, 2⟩]).getD 1 dW).end_) := by
  with_unfolding_all decide

/-- C2 (amended): the character-granularity engine always returns one
output word per normalized reference token, with identical texts in
identical order.  The token-granularity repair does so whenever its
opcodes contain no `delete`; a `delete` opcode (reference tokens with no
hypothesis counterpart at all) makes the repair silently drop those
tokens (see the counterexample). -/
theorem claim2_word_sequence_amended :
    (∀ (tokens : List String) (whisper : List Wd),
      (align_transcription_to_script_and_correct_timestamps tokens whisper).map
          Wd.word = tokens ∧
      (align_transcription_to_script_and_correct_timestamps tokens whisper).length =
        tokens.length) ∧
    (∀ (e : List String) (md : List Wd),
      (∀ op ∈ get_opcodes e (md.map Wd.word), op.tag ≠ .delete) →
      (_repair_unknown_tokens_with_difflib e md).map Wd.word = e ∧
      (_repair_unknown_tokens_with_difflib e md).length = e.length) := by
  constructor
  · intro tokens whisper
    have hdef : align_transcription_to_script_and_correct_timestamps tokens whisper =
        roundAll (interpAux (projectTokens
          (get_opcodes (String.join tokens).toList (whisperChars whisper))
          (whisperTimeMap whisper) tokens 0 0) 0 []) := rfl
    have hmap : (align_transcription_to_script_and_correct_timestamps tokens
        whisper).map Wd.word = tokens := by
      rw [hdef, roundAll_words, interpAux_words]
      simp only [List.map_nil, List.nil_append]
      exact projectTokens_words _ _ tokens 0 0
    refine ⟨hmap, ?_⟩
    have hl := congrArg List.length hmap
    rwa [List.length_map] at hl
  · intro e md hnd
    have hmap := repair_words_no_delete e md hnd
    refine ⟨hmap, ?_⟩
    have hl := congrArg List.length hmap
    rwa [List.length_map] at hl

/-- Witness for C2: the no-`delete` branch of the theorem applied at a
concrete input. -/
theorem claim2_word_sequence_witness :
    (∀ op ∈ get_opcodes (["a"] : List String)
        (List.map Wd.word [⟨"a", 0, 1⟩]), op.tag ≠ .delete) ∧
    (_repair_unknown_tokens_with_difflib ["a"] [⟨"a", 0, 1⟩]).map Wd.word = ["a"] :=
  ⟨by with_unfolding_all decide,
   (claim2_word_sequence_amended.2 ["a"] [⟨"a", 0, 1⟩]
     (by with_unfolding_all decide)).1⟩

/-- C2 counterexample: the token-granularity repair drops reference
tokens covered by a `delete` opcode: with expected tokens `a b` and MFA
data containing only `a`, the output has 1 word, not 2. -/
theorem claim2_dropped_token_counterexample :
    (_repair_unknown_tokens_with_difflib ["a", "b"] [⟨"a", 0, 1⟩]).length ≠
      (["a", "b"] : List String).length := by
  with_unfolding_all decide

/-- C3 (amended): no distinct NoTimeSource condition exists.  With an
empty hypothesis fragment list the engine computes a normal fully
timestamped timeline giving token `k` the uniform slot
`(k * 0.5, (k + 1) * 0.5)` (first two conjuncts) — the silently wrong
spacing the spec warns about.  The run then raises, but only the
unconditional `TypeError` of the swapped-argument debug-save step: the
surfaced outcome for an empty fragment list is identical to the outcome
for any fragment list whatsoever (third conjunct), so the caller
receives no condition distinguishing the missing time source. -/
theorem claim3_no_distinct_no_time_source (tokens : List String) :
    (align_transcription_to_script_and_correct_timestamps tokens []).length =
      tokens.length ∧
    (∀ k, k < tokens.length →
      (align_transcription_to_script_and_correct_timestamps tokens []).getD k dW =
        ⟨tokens.getD k "", (k : ℚ) / 2, ((k : ℚ) + 1) / 2⟩) ∧
    (∀ (whisper : List Wd) (output_folder_path : String),
      align_v6_run tokens [] output_folder_path =
        align_v6_run tokens whisper output_folder_path) := by
  have hal : align_transcription_to_script_and_correct_timestamps tokens [] =
      fill_gap (tokens.map (fun w => (⟨w, -1, -1⟩ : Wd))) 0 (1/2) := by
    have hdef : align_transcription_to_script_and_correct_timestamps tokens [] =
        roundAll (interpAux (projectTokens
          (get_opcodes (String.join tokens).toList (whisperChars []))
          (whisperTimeMap []) tokens 0 0) 0 []) := rfl
    rw [hdef]
    rw [show whisperTimeMap [] = [] from rfl]
    rw [projectTokens_no_tmap]
    rw [interpAux_all_unres _ 0 [] ?hall]
    case hall =>
      intro w hw
      obtain ⟨x, _, rfl⟩ := List.mem_map.mp hw
      rfl
    rw [List.nil_append, roundAll_fill_gap]
  refine ⟨?_, ?_, ?_⟩
  · rw [hal, fill_gap_length, List.length_map]
  · intro k hk
    rw [hal, fill_gap_getD _ _ _ k (by rw [List.length_map]; exact hk)]
    rw [getD_map_unres tokens k hk]
    have e1 : (0 : ℚ) + (k : ℚ) * (1/2) = (k : ℚ) / 2 := by ring
    have e2 : (0 : ℚ) + ((k : ℚ) + 1) * (1/2) = ((k + 1 : ℕ) : ℚ) / 2 := by
      push_cast
      ring
    rw [e1, e2, round2_nat_half k, round2_nat_half (k + 1)]
    refine congrArg (fun t => Wd.mk (Wd.word ⟨tokens.getD k "", -1, -1⟩)
      ((k : ℚ) / 2) t) ?_
    push_cast
    ring
  · intro whisper output_folder_path
    rw [align_v6_run_raises, align_v6_run_raises]

/-- Witness for C3: the uniform-slot conjunct applied at a concrete
input. -/
theorem claim3_no_distinct_no_time_source_witness :
    1 < (["a", "b"] : List String).length ∧
    (align_transcription_to_script_and_correct_timestamps ["a", "b"] []).getD 1 dW =
      ⟨(["a", "b"] : List String).getD 1 "", ((1 : ℕ) : ℚ) / 2, (((1 : ℕ) : ℚ) + 1) / 2⟩ :=
  ⟨by decide, (claim3_no_distinct_no_time_source ["a", "b"]).2.1 1 (by decide)⟩

/-- C3 counterexample: on reference `["a"]` with an empty fragment list
the run surfaces exactly the same outcome as with a perfectly good
fragment list — the unconditional save-step `TypeError` — so no
distinct NoTimeSource condition reaches the caller; and the timeline
the engine computed before raising is the fully timestamped
`[("a", 0, 0.5)]` the claim says must not be produced. -/
theorem claim3_not_distinct_counterexample :
    align_v6_run ["a"] [] "" = align_v6_run ["a"] [⟨"a", 7, 8⟩] "" ∧
    align_transcription_to_script_and_correct_timestamps ["a"] [] =
      [⟨"a", 0, 1/2⟩] :=
  ⟨(align_v6_run_raises ["a"] [] "").trans (align_v6_run_raises ["a"] [⟨"a", 7, 8⟩] "").symm,
   by with_unfolding_all decide⟩

/-- C4 (code bug): in `align v6.py` the short-match guard reads
`len(word) > 2 and match_len < 1`, which never fires because an overlap
always has `match_len >= 1`; so a 1-character `equal` overlap on the
3-character token `abc` is accepted and yields timing `(1, 2)` (first
conjunct; the accepted candidate index set is `[0]`, second conjunct).
The sibling `align but no comments.py` has the intended guard
`len(word) > 2 > match_len`, which rejects the overlap (third
conjunct, empty candidate set), matching the claim. -/
theorem claim4_dead_guard_bug :
    align_transcription_to_script_and_correct_timestamps ["abc"] [⟨"b", 1, 2⟩] =
      [⟨"abc", 1, 2⟩] ∧
    matched_audio_indices (get_opcodes "abc".toList "b".toList) 0 3 3 = [0] ∧
    matched_audio_indices_nc (get_opcodes "abc".toList "b".toList) 0 3 3 = [] := by
  refine ⟨?_, ?_, ?_⟩ <;> with_unfolding_all decide

/-- C5 (amended): in the token-granularity repair, a `replace` opcode
with a non-empty MFA chunk distributes the chunk's total span in
consecutive equal `duration / N` slots over the `N` script tokens only
when the chunk sizes differ (case B; first conjunct, slot `k` running
from `start + k * wd` to `start + (k + 1) * wd`, rounded to 3 decimals).
When the sizes agree (`N = M`), the hypothesis timing is copied
index-by-index instead (case A; second conjunct), refuting the claim's
unconditional even distribution.  The claim's own scenario
`["x","y"]` against `["<unk>"]` at `(1, 3)`, an `N ≠ M` case, holds
(third conjunct). -/
theorem claim5_replace_distribution_amended :
    (∀ (e : List String) (md : List Wd) (op : Opcode),
      op.tag = .replace → mfaChunk md op ≠ [] →
      (mfaChunk md op).length ≠ (scriptChunk e op).length →
      (processOpcode e md op).length = (scriptChunk e op).length ∧
      ∀ k, k < (scriptChunk e op).length →
        (processOpcode e md op).getD k dW =
          ⟨(scriptChunk e op).getD k "",
            round3 (((mfaChunk md op).headD dW).start + (k : ℚ) *
              ((((mfaChunk md op).getLastD dW).end_ -
                  ((mfaChunk md op).headD dW).start) /
                ((scriptChunk e op).length : ℚ))),
            round3 (((mfaChunk md op).headD dW).start + ((k : ℚ) + 1) *
              ((((mfaChunk md op).getLastD dW).end_ -
                  ((mfaChunk md op).headD dW).start) /
                ((scriptChunk e op).length : ℚ)))⟩) ∧
    (∀ (e : List String) (md : List Wd) (op : Opcode),
      op.tag = .replace → mfaChunk md op ≠ [] →
      (mfaChunk md op).length = (scriptChunk e op).length →
      ∀ k, k < (scriptChunk e op).length →
        (processOpcode e md op).getD k dW =
          ⟨(scriptChunk e op).getD k "",
            ((mfaChunk md op).getD k dW).start,
            ((mfaChunk md op).getD k dW).end_⟩) ∧
    _repair_unknown_tokens_with_difflib ["x", "y"] [⟨"<unk>", 1, 3⟩] =
      [⟨"x", 1, 2⟩, ⟨"y", 2, 3⟩] := by
  refine ⟨?_, ?_, by with_unfolding_all decide⟩
  · intro e md op htag hne hlen
    rw [processOpcode_replace_caseB htag hne hlen]
    exact ⟨distributeEven_length _ _ _, fun k hk => distributeEven_getD _ _ _ k hk⟩
  · intro e md op htag hne hlen k hk
    rw [processOpcode_replace_caseA htag hne hlen]
    exact zipWith_copy_getD _ _ k hk (by rw [hlen]; exact hk)

/-- Witness for C5: the case-B slot formula applied to the concrete
`replace` opcode `["x","y"]` against `["<unk>"]` at `(1, 3)`. -/
theorem claim5_replace_distribution_witness :
    ((⟨.replace, 0, 2, 0, 1⟩ : Opcode).tag = .replace ∧
      mfaChunk [⟨"<unk>", 1, 3⟩] ⟨.replace, 0, 2, 0, 1⟩ ≠ [] ∧
      (mfaChunk [⟨"<unk>", 1, 3⟩] ⟨.replace, 0, 2, 0, 1⟩).length ≠
        (scriptChunk ["x", "y"] ⟨.replace, 0, 2, 0, 1⟩).length) ∧
    (processOpcode ["x", "y"] [⟨"<unk>", 1, 3⟩] ⟨.replace, 0, 2, 0, 1⟩).length =
      (scriptChunk ["x", "y"] ⟨.replace, 0, 2, 0, 1⟩).length :=
  ⟨⟨rfl, by with_unfolding_all decide, by with_unfolding_all decide⟩,
   (claim5_replace_distribution_amended.1 ["x", "y"] [⟨"<unk>", 1, 3⟩]
      ⟨.replace, 0, 2, 0, 1⟩ rfl (by with_unfolding_all decide)
      (by with_unfolding_all decide)).1⟩

/-- C5 counterexample: a `replace` with `N = M = 2` copies hypothesis
timing verbatim, so with MFA chunks `(0,1)` and `(5,9)` the first
output is `("x", 0, 1)`, not the even split `("x", 0, 4.5)` the claim
demands. -/
theorem claim5_equal_size_counterexample :
    _repair_unknown_tokens_with_difflib ["x", "y"] [⟨"u", 0, 1⟩, ⟨"v", 5, 9⟩] =
      [⟨"x", 0, 1⟩, ⟨"y", 5, 9⟩] ∧
    (_repair_unknown_tokens_with_difflib ["x", "y"]
        [⟨"u", 0, 1⟩, ⟨"v", 5, 9⟩]).getD 0 dW ≠ ⟨"x", 0, 9/2⟩ := by
  refine ⟨?_, ?_⟩ <;> with_unfolding_all decide

/-- C6: gap interpolation.  A maximal unresolved run bounded by a
preceding resolved anchor `A` and a following resolved anchor `B` is
filled by `fill_gap` evenly over `[A.end, B.start]` (first conjunct); a
run at the start of the sequence is anchored at time `0.0` (second
conjunct); slot `k` of such a fill runs from
`t0 + k * (t1 - t0) / count` to `t0 + (k + 1) * (t1 - t0) / count`,
rounded to 2 decimals (third conjunct); and the spec's Scenario B holds
end-to-end: with only `a = (0, 0.5)` and `c = (2, 2.5)` matched, `b`
receives `(0.5, 2.0)` (fourth conjunct). -/
theorem claim6_gap_interpolation :
    (∀ (pre : List Wd) (A : Wd) (gap : List Wd) (B : Wd) (post : List Wd),
      A.start ≠ -1 → B.start ≠ -1 → (∀ w ∈ gap, w.start = -1) →
      ∃ preOut, interpAux (pre ++ A :: (gap ++ B :: post)) 0 [] =
          preOut ++ A :: (fill_gap gap A.end_
              ((B.start - A.end_) / (gap.length : ℚ)) ++
            B :: interpAux post B.end_ []) ∧
        preOut.length = pre.length) ∧
    (∀ (gap : List Wd) (B : Wd) (post : List Wd),
      B.start ≠ -1 → (∀ w ∈ gap, w.start = -1) →
      interpAux (gap ++ B :: post) 0 [] =
        fill_gap gap 0 ((B.start - 0) / (gap.length : ℚ)) ++
          B :: interpAux post B.end_ []) ∧
    (∀ (gap : List Wd) (t0 t1 : ℚ) (k : Nat), k < gap.length →
      (fill_gap gap t0 ((t1 - t0) / (gap.length : ℚ))).getD k dW =
        ⟨(gap.getD k dW).word,
          round2 (t0 + (k : ℚ) * ((t1 - t0) / (gap.length : ℚ))),
          round2 (t0 + ((k : ℚ) + 1) * ((t1 - t0) / (gap.length : ℚ)))⟩) ∧
    align_transcription_to_script_and_correct_timestamps ["a", "b", "c"]
        [⟨"a", 0, 1/2⟩, ⟨"c", 2, 5/2⟩] =
      [⟨"a", 0, 1/2⟩, ⟨"b", 1/2, 2⟩, ⟨"c", 2, 5/2⟩] := by
  refine ⟨?_, ?_, ?_, by with_unfolding_all decide⟩
  · intro pre A gap B post hA hB hgap
    obtain ⟨preOut, heq, hlen⟩ :=
      interpAux_split_at_resolved pre 0 [] A (gap ++ B :: post) hA
    refine ⟨preOut, ?_, by simpa using hlen⟩
    rw [heq]
    have hrun := interpAux_fill_run gap [] A.end_ B post hgap hB
    rw [List.nil_append] at hrun
    rw [hrun]
  · intro gap B post hB hgap
    have hrun := interpAux_fill_run gap [] 0 B post hgap hB
    rw [List.nil_append] at hrun
    exact hrun
  · intro gap t0 t1 k hk
    exact fill_gap_getD gap t0 _ k hk

/-- Witness for C6: the anchored-run decomposition applied at a
concrete input. -/
theorem claim6_gap_interpolation_witness :
    (∀ w ∈ ([⟨"g", -1, -1⟩] : List Wd), w.start = -1) ∧
    ∃ preOut,
      interpAux ([] ++ (⟨"x", 0, 1⟩ : Wd) ::
          (([⟨"g", -1, -1⟩] : List Wd) ++ (⟨"y", 3, 4⟩ : Wd) :: [])) 0 [] =
        preOut ++ (⟨"x", 0, 1⟩ : Wd) ::
          (fill_gap [⟨"g", -1, -1⟩] (Wd.end_ ⟨"x", 0, 1⟩)
              ((Wd.start ⟨"y", 3, 4⟩ - Wd.end_ ⟨"x", 0, 1⟩) /
                ((([⟨"g", -1, -1⟩] : List Wd).length : ℚ))) ++
            (⟨"y", 3, 4⟩ : Wd) :: interpAux [] (Wd.end_ ⟨"y", 3, 4⟩) []) ∧
      preOut.length = ([] : List Wd).length :=
  ⟨by with_unfolding_all decide,
   claim6_gap_interpolation.1 [] ⟨"x", 0, 1⟩ [⟨"g", -1, -1⟩] ⟨"y", 3, 4⟩ []
     (by with_unfolding_all decide) (by with_unfolding_all decide)
     (by with_unfolding_all decide)⟩

/-- C7: trailing-gap extrapolation.  An unresolved run reaching the end
of the sequence after a resolved anchor `A` is filled forward from
`A.end` at the fixed rate of `0.5` seconds per token (first conjunct;
slot `k` runs from `t + k * 0.5` to `t + (k + 1) * 0.5`, second
conjunct), and the spec's Scenario E holds end-to-end: 2 trailing
unmatched tokens after an anchor ending at `10.0` receive
`(10.0, 10.5)` and `(10.5, 11.0)` (third conjunct). -/
theorem claim7_trailing_extrapolation :
    (∀ (pre : List Wd) (A : Wd) (gap : List Wd),
      A.start ≠ -1 → (∀ w ∈ gap, w.start = -1) →
      ∃ preOut, interpAux (pre ++ A :: gap) 0 [] =
          preOut ++ A :: fill_gap gap A.end_ (1/2) ∧
        preOut.length = pre.length) ∧
    (∀ (gap : List Wd) (t : ℚ) (k : Nat), k < gap.length →
      (fill_gap gap t (1/2)).getD k dW =
        ⟨(gap.getD k dW).word, round2 (t + (k : ℚ) * (1/2)),
          round2 (t + ((k : ℚ) + 1) * (1/2))⟩) ∧
    align_transcription_to_script_and_correct_timestamps ["a", "b", "c", "d", "e"]
        [⟨"a", 0, 1⟩, ⟨"b", 1, 2⟩, ⟨"c", 2, 10⟩] =
      [⟨"a", 0, 1⟩, ⟨"b", 1, 2⟩, ⟨"c", 2, 10⟩, ⟨"d", 10, 21/2⟩,
        ⟨"e", 21/2, 11⟩] := by
  refine ⟨?_, ?_, by with_unfolding_all decide⟩
  · intro pre A gap hA hgap
    obtain ⟨preOut, heq, hlen⟩ := interpAux_split_at_resolved pre 0 [] A gap hA
    refine ⟨preOut, ?_, by simpa using hlen⟩
    rw [heq, interpAux_all_unres gap A.end_ [] hgap, List.nil_append]
  · intro gap t k hk
    exact fill_gap_getD gap t _ k hk

/-- Witness for C7: the trailing-run decomposition applied at a
concrete input. -/
theorem claim7_trailing_extrapolation_witness :
    (∀ w ∈ ([⟨"g", -1, -1⟩, ⟨"h", -1, -1⟩] : List Wd), w.start = -1) ∧
    ∃ preOut,
      interpAux ([] ++ (⟨"x", 9, 10⟩ : Wd) ::
          ([⟨"g", -1, -1⟩, ⟨"h", -1, -1⟩] : List Wd)) 0 [] =
        preOut ++ (⟨"x", 9, 10⟩ : Wd) ::
          fill_gap [⟨"g", -1, -1⟩, ⟨"h", -1, -1⟩] (Wd.end_ ⟨"x", 9, 10⟩) (1/2) ∧
      preOut.length = ([] : List Wd).length :=
  ⟨by with_unfolding_all decide,
   claim7_trailing_extrapolation.1 [] ⟨"x", 9, 10⟩ [⟨"g", -1, -1⟩, ⟨"h", -1, -1⟩]
     (by with_unfolding_all decide) (by with_unfolding_all decide)⟩

/-- C8: for every input, every word of the final result has
non-negative (hence finite, in the exact-rational model) start and end
times, and in particular no `-1` sentinel survives the repair stage. -/
theorem claim8_full_coverage (tokens : List String) (whisper : List Wd) :
    ∀ k, k < (align_transcription_to_script_and_correct_timestamps tokens
        whisper).length →
      0 ≤ ((align_transcription_to_script_and_correct_timestamps tokens
          whisper).getD k dW).start ∧
      0 ≤ ((align_transcription_to_script_and_correct_timestamps tokens
          whisper).getD k dW).end_ ∧
      ((align_transcription_to_script_and_correct_timestamps tokens
          whisper).getD k dW).start ≠ -1 ∧
      ((align_transcription_to_script_and_correct_timestamps tokens
          whisper).getD k dW).end_ ≠ -1 := by
  intro k hk
  have hchain := align_outChain tokens whisper
  obtain ⟨h1, h2⟩ := outChain_index _ 0 hchain k hk
  refine ⟨h1, by linarith, by intro hc; rw [hc] at h1; linarith,
    by intro hc; rw [hc] at h2; linarith⟩

/-- Witness for C8: the coverage theorem applied at a concrete input. -/
theorem claim8_full_coverage_witness :
    0 < (align_transcription_to_script_and_correct_timestamps ["a"]
        [⟨"a", 2, 3⟩]).length ∧
    0 ≤ ((align_transcription_to_script_and_correct_timestamps ["a"]
        [⟨"a", 2, 3⟩]).getD 0 dW).start :=
  ⟨by with_unfolding_all decide,
   (claim8_full_coverage ["a"] [⟨"a", 2, 3⟩] 0 (by with_unfolding_all decide)).1⟩

/-- C9: with an empty normalized reference token sequence the
alignment run fails.  The v6 engine raises at its terminal save step —
as written, the swapped-argument call makes `save_json_file` attempt
`open()` on the word list and raise a `TypeError` (and even under the
helper its intended argument order, the empty list is falsy data and
line 21 raises `ValueError`) — so an error is surfaced to the caller
and the engine never returns a normal empty result (first and second
conjuncts).  The older `align_transcription_to_script.py` variant
likewise raises at its save branch when the final list is empty (third
conjunct). -/
theorem claim9_empty_reference_fails :
    (∀ (whisper : List Wd) (output_folder_path : String),
      align_v6_run [] whisper output_folder_path =
        Except.error "TypeError: expected str, bytes or os.PathLike object, not list") ∧
    (∀ (whisper : List Wd) (output_folder_path : String) (result : List Wd),
      align_v6_run [] whisper output_folder_path ≠ Except.ok result) ∧
    old_align_final_save [] =
      Except.error "Couldnt save JSON for transcription" := by
  refine ⟨fun whisper p => align_v6_run_raises [] whisper p, ?_, rfl⟩
  intro whisper p result hc
  rw [align_v6_run_raises] at hc
  exact Except.noConfusion hc

/-- C10: `_repair_unknown_tokens` maps each segment independently:
a `"<unk>"` word becomes `""` with unchanged times, every other segment
is unchanged, and the length is preserved.  (The Python source
deep-copies its input, so the caller's list is not mutated; the model
is a pure function.) -/
theorem claim10_unk_blanking (l : List Wd) :
    (_repair_unknown_tokens l).length = l.length ∧
    ∀ k, k < l.length →
      (_repair_unknown_tokens l).getD k dW =
        if (l.getD k dW).word = "<unk>"
        then ⟨"", (l.getD k dW).start, (l.getD k dW).end_⟩
        else l.getD k dW := by
  constructor
  · simp [_repair_unknown_tokens]
  · intro k hk
    unfold _repair_unknown_tokens
    rw [getD_map_wd _ l k hk]

/-- Witness for C10: the blanking theorem applied at a concrete input. -/
theorem claim10_unk_blanking_witness :
    0 < ([⟨"<unk>", 1, 2⟩] : List Wd).length ∧
    (_repair_unknown_tokens [⟨"<unk>", 1, 2⟩]).getD 0 dW =
      (if (([⟨"<unk>", 1, 2⟩] : List Wd).getD 0 dW).word = "<unk>"
       then ⟨"", (([⟨"<unk>", 1, 2⟩] : List Wd).getD 0 dW).start,
         (([⟨"<unk>", 1, 2⟩] : List Wd).getD 0 dW).end_⟩
       else ([⟨"<unk>", 1, 2⟩] : List Wd).getD 0 dW) :=
  ⟨by decide, (claim10_unk_blanking [⟨"<unk>", 1, 2⟩]).2 0 (by decide)⟩
